import Mathlib

/-
Verification of the filename reconciliation engine of the mirror tool.

The embedding models the two tool operations of the Go source
(handleDuplicates and handleXMPRenaming) over a snapshot of a single
directory.  A directory entry carries its name, its size in bytes and a
directory flag; a snapshot is the listing in directory order (the walk
visits entries in that order).  Filesystem mutations (os.Remove and
os.Rename calls) are recorded in an operation trace, and decisions are
accumulated in the order they are printed.  Strings.EqualFold is modelled
by ASCII case folding, which agrees with Go on all ASCII names.
-/

namespace Mirror

/-- Go strings.HasSuffix on character lists. -/
def endsWithCL (l suf : List Char) : Bool :=
  decide (suf.length ≤ l.length) && decide (l.drop (l.length - suf.length) = suf)

/-- Go strings.HasSuffix. -/
def strEndsWith (s suf : String) : Bool :=
  endsWithCL s.data suf.data

/-- Go strings.TrimSuffix. -/
def trimSuffix (s suf : String) : String :=
  if strEndsWith s suf then ⟨s.data.take (s.data.length - suf.data.length)⟩ else s

/-- Matching the tail of the marker regex after the opening parenthesis and
the first digit: the remaining decimal digits followed by a closing
parenthesis.  Returns the characters after the match. -/
def markerClose : List Char → Option (List Char)
  | [] => none
  | c :: cs => if c = ')' then some cs else if c.isDigit then markerClose cs else none

/-- Matching the part of the marker regex after the opening parenthesis:
one or more decimal digits followed by a closing parenthesis. -/
def markerOpen : List Char → Option (List Char)
  | [] => none
  | c :: cs => if c.isDigit then markerClose cs else none

/-- One attempted match of the Go regex ` ?\(\d+\)` at the head of the
list: an optional single space, an opening parenthesis, one or more
digits, a closing parenthesis.  Returns the characters after the match. -/
def tryMarker (l : List Char) : Option (List Char) :=
  match l with
  | c1 :: c2 :: cs =>
      if c1 = ' ' ∧ c2 = '(' then markerOpen cs
      else if c1 = '(' then markerOpen (c2 :: cs) else none
  | [c] => if c = '(' then markerOpen [] else none
  | [] => none

/-- Scan of regexp.ReplaceAllString: at each position try the marker
pattern; on a match drop it and continue after the match, otherwise keep
the character.  The fuel argument is instantiated with the list length,
which bounds the number of steps. -/
def stripAux : Nat → List Char → List Char
  | 0, l => l
  | _ + 1, [] => []
  | n + 1, c :: cs =>
    match tryMarker (c :: cs) with
    | some rest => stripAux n rest
    | none => c :: stripAux n cs

/-- Go cleanFilename: removes every numbered variant marker matching
` ?\(\d+\)` from the name. -/
def cleanFilename (s : String) : String :=
  ⟨stripAux s.data.length s.data⟩

/-- Go strings.Contains(name, "("). -/
def containsParen (s : String) : Bool :=
  s.data.any (fun c => c == '(')

theorem tryMarker_none {l : List Char} (h : '(' ∉ l) : tryMarker l = none := by
  unfold tryMarker
  split
  · rename_i c1 c2 cs
    rw [if_neg, if_neg]
    · intro hc; subst hc; exact h (by simp)
    · intro hc; exact h (by simp [hc.2])
  · rename_i c
    rw [if_neg]
    intro hc; subst hc; exact h (by simp)
  · rfl

theorem stripAux_of_not_paren : ∀ (n : Nat) (l : List Char), '(' ∉ l → stripAux n l = l := by
  intro n
  induction n with
  | zero => intro l _; rfl
  | succ n ih =>
    intro l h
    cases l with
    | nil => rfl
    | cons c cs =>
      have hcs : '(' ∉ cs := fun hm => h (List.mem_cons_of_mem c hm)
      simp only [stripAux, tryMarker_none h]
      rw [ih cs hcs]

theorem cleanFilename_of_not_paren (s : String) (h : '(' ∉ s.data) :
    cleanFilename s = s := by
  unfold cleanFilename
  rw [stripAux_of_not_paren _ _ h]

theorem not_paren_of_containsParen_false {s : String} (h : containsParen s = false) :
    '(' ∉ s.data := by
  intro hm
  have ht : containsParen s = true :=
    List.any_eq_true.mpr ⟨'(', hm, by simp⟩
  rw [ht] at h
  exact Bool.noConfusion h

theorem containsParen_of_clean_ne {s : String} (h : cleanFilename s ≠ s) :
    containsParen s = true := by
  by_contra hc
  have hf : containsParen s = false := by
    cases hcp : containsParen s with
    | false => rfl
    | true => exact absurd hcp hc
  exact h (cleanFilename_of_not_paren s (not_paren_of_containsParen_false hf))

/-- Helper for filepath.Ext: the characters from the final dot onward,
or none when the name has no dot. -/
def extAux : List Char → Option (List Char)
  | [] => none
  | c :: cs =>
    match extAux cs with
    | some r => some r
    | none => if c = '.' then some (c :: cs) else none

/-- Go filepath.Ext: the suffix beginning at the final dot of the name,
empty when there is no dot. -/
def fpExt (s : String) : String :=
  ⟨(extAux s.data).getD []⟩

/-- ASCII case folding of one character, the ASCII fragment of the
folding used by Go strings.EqualFold. -/
def foldChar (c : Char) : Char :=
  if 'A' ≤ c ∧ c ≤ 'Z' then Char.ofNat (c.toNat + 32) else c

/-- Go strings.EqualFold restricted to ASCII names. -/
def eqFold (a b : String) : Bool :=
  a.data.map foldChar == b.data.map foldChar

/-- A directory entry of the scan snapshot: name, size in bytes and the
directory flag, as yielded by the walk. -/
structure Entry where
  name : String
  size : Nat
  isDir : Bool
deriving DecidableEq

/-- Model of os.Stat against the current listing of the directory: the
first entry carrying the name, none when the file does not exist. -/
def stat (fs : List Entry) (nm : String) : Option Entry :=
  fs.find? (fun en => en.name == nm)

/-- Effect of os.Remove: the entry with the name disappears from the
listing; removing a missing file reports an error and changes nothing. -/
def removeName (fs : List Entry) (nm : String) : List Entry :=
  fs.filter (fun en => !(en.name == nm))

/-- Effect of os.Rename: the source entry now carries the destination
name; renaming a missing file reports an error and changes nothing. -/
def renameEntry (fs : List Entry) (src dst : String) : List Entry :=
  fs.map (fun en => if en.name = src then { en with name := dst } else en)

/-- A recorded filesystem mutation call: os.Remove or os.Rename. -/
inductive FsOp where
  | remove (nm : String)
  | rename (src dst : String)
deriving DecidableEq

/-- A duplicate pairing decision as printed: canonical original name,
duplicate name and the shared size. -/
abbrev DupPair := String × String × Nat

/-- State threaded through the duplicates walk: the current directory
listing, the trace of mutation calls and the emitted pairings. -/
structure DupState where
  fs : List Entry
  ops : List FsOp
  decs : List DupPair
deriving DecidableEq

/-- Decision part of one handleDuplicates walk step: skip directories,
sidecar files, names without a parenthesis and names the normalizer
leaves unchanged; otherwise look up the cleaned name next to the entry
and emit a pairing exactly when both stats succeed with equal sizes. -/
def dupDecision (fs : List Entry) (e : Entry) : Option DupPair :=
  if e.isDir then none
  else if strEndsWith e.name ".xmp" then none
  else if !containsParen e.name then none
  else if cleanFilename e.name = e.name then none
  else
    match stat fs (cleanFilename e.name) with
    | none => none
    | some i2 =>
      match stat fs e.name with
      | none => none
      | some i1 =>
        if i1.size = i2.size then some (cleanFilename e.name, e.name, i1.size) else none

/-- One handleDuplicates walk step: print the pairing when one is found
and, in apply mode, remove the walked duplicate file. -/
def dupStep (b : Bool) (st : DupState) (e : Entry) : DupState :=
  match dupDecision st.fs e with
  | none => st
  | some p =>
    { fs := if b then removeName st.fs p.2.1 else st.fs
      ops := if b then st.ops ++ [FsOp.remove p.2.1] else st.ops
      decs := st.decs ++ [p] }

/-- handleDuplicates over a directory listing, walking the snapshot in
directory order; the flag is the --apply switch. -/
def dupRun (b : Bool) (L : List Entry) : DupState :=
  L.foldl (dupStep b) ⟨L, [], []⟩

/-- The terminal classification of one sidecar in handleXMPRenaming. -/
inductive XClass where
  | alreadyCorrect
  | ambiguous
  | orphanedNoImage
  | orphanedRecheck
  | correctName
  | skipSilent (existing : String)
  | removeDest (dst : String)
  | skipDest (dst : String)
  | renameNeeded (dst : String)
deriving DecidableEq

/-- The literal base name of a sidecar: its name with the ".xmp" suffix
removed. -/
def sidecarBase (nm : String) : String :=
  trimSuffix nm ".xmp"

/-- The candidate filter of handleXMPRenaming: a sibling that is not a
directory, not itself a sidecar, has the extension declared by the
sidecar name (case-insensitively) and whose cleaned stem matches the
cleaned stem of the literal base name case-insensitively. -/
def candMatch (nm : String) (en : Entry) : Bool :=
  let imageBase := sidecarBase nm
  let imageExt := fpExt imageBase
  let cleanBase := cleanFilename imageBase
  let cleanBaseOnly := trimSuffix cleanBase (fpExt cleanBase)
  !en.isDir && !(strEndsWith en.name ".xmp") && eqFold (fpExt en.name) imageExt &&
    eqFold (cleanFilename (trimSuffix en.name (fpExt en.name))) cleanBaseOnly

/-- All base-file candidates of a sidecar in the current listing. -/
def xmpCands (fs : List Entry) (nm : String) : List Entry :=
  fs.filter (candMatch nm)

/-- Candidates still carrying a parenthesis in the name. -/
def xmpNumbered (fs : List Entry) (nm : String) : List Entry :=
  (xmpCands fs nm).filter (fun en => containsParen en.name)

/-- Candidates without a parenthesis in the name. -/
def xmpBare (fs : List Entry) (nm : String) : List Entry :=
  (xmpCands fs nm).filter (fun en => !containsParen en.name)

/-- The chosen candidate: the first numbered candidate in directory
order, otherwise the first bare one. -/
def xmpFound (fs : List Entry) (nm : String) : Option Entry :=
  match xmpNumbered fs nm with
  | en :: _ => some en
  | [] => (xmpBare fs nm).head?

/-- The rename and conflict branch of handleXMPRenaming, entered after
the re-check of the literal base name: compute the correct sidecar name
from the chosen candidate, look for a case-insensitive collision at the
destination and classify accordingly. -/
def xmpRenameBranch (fs : List Entry) (e : Entry) (img : Entry) : XClass :=
  let correct := img.name ++ ".xmp"
  if e.name = correct then XClass.correctName
  else
    match fs.find? (fun en => eqFold en.name correct) with
    | some ex =>
      if ex.name ≠ correct then XClass.skipSilent ex.name
      else
        match stat fs img.name with
        | none => XClass.removeDest correct
        | some _ => XClass.skipDest correct
    | none => XClass.renameNeeded correct

/-- Classification of one sidecar by handleXMPRenaming against the
current listing: the literal base-name check, the ambiguity check over
the candidate partitions, the orphan checks (including the re-check of
the literal base name after a candidate was chosen) and the rename
branch. -/
def xmpClassify (fs : List Entry) (e : Entry) : XClass :=
  match stat fs (sidecarBase e.name) with
  | some _ => XClass.alreadyCorrect
  | none =>
    if xmpBare fs e.name ≠ [] ∧ xmpNumbered fs e.name ≠ [] then XClass.ambiguous
    else
      match xmpFound fs e.name with
      | none => XClass.orphanedNoImage
      | some img =>
        match stat fs (sidecarBase e.name) with
        | none => XClass.orphanedRecheck
        | some _ => xmpRenameBranch fs e img

/-- State threaded through the sidecar walk: the current listing, the
trace of mutation calls, the pending renames collected for execution
after the walk and the printed decisions. -/
structure XmpState where
  fs : List Entry
  ops : List FsOp
  pend : List (String × String)
  decs : List (String × XClass)
deriving DecidableEq

/-- One handleXMPRenaming walk step: skip directories and non-sidecars,
classify the sidecar and perform the effects of the classification
(orphan removals and destination removals mutate only in apply mode;
renames are only collected). -/
def xmpStep (b : Bool) (st : XmpState) (e : Entry) : XmpState :=
  if e.isDir then st
  else if strEndsWith e.name ".xmp" then
    match xmpClassify st.fs e with
    | XClass.alreadyCorrect => st
    | XClass.ambiguous => st
    | XClass.correctName => st
    | XClass.skipSilent _ => st
    | XClass.orphanedNoImage =>
      { st with
        decs := st.decs ++ [(e.name, XClass.orphanedNoImage)]
        fs := if b then removeName st.fs e.name else st.fs
        ops := if b then st.ops ++ [FsOp.remove e.name] else st.ops }
    | XClass.orphanedRecheck =>
      { st with
        decs := st.decs ++ [(e.name, XClass.orphanedRecheck)]
        fs := if b then removeName st.fs e.name else st.fs
        ops := if b then st.ops ++ [FsOp.remove e.name] else st.ops }
    | XClass.removeDest d =>
      { st with
        decs := st.decs ++ [(e.name, XClass.removeDest d)]
        fs := if b then removeName st.fs d else st.fs
        ops := if b then st.ops ++ [FsOp.remove d] else st.ops }
    | XClass.skipDest d =>
      { st with decs := st.decs ++ [(e.name, XClass.skipDest d)] }
    | XClass.renameNeeded d =>
      { st with
        decs := st.decs ++ [(e.name, XClass.renameNeeded d)]
        pend := st.pend ++ [(e.name, d)] }
  else st

/-- The phase after the walk of handleXMPRenaming: in apply mode execute
the collected renames in order, recording each os.Rename call. -/
def xmpFinish (b : Bool) (st : XmpState) : XmpState :=
  if b then
    st.pend.foldl
      (fun s pr =>
        { s with fs := renameEntry s.fs pr.1 pr.2, ops := s.ops ++ [FsOp.rename pr.1 pr.2] })
      st
  else st

/-- handleXMPRenaming over a directory listing: walk the snapshot in
directory order, then in apply mode execute the collected renames. -/
def xmpRun (b : Bool) (L : List Entry) : XmpState :=
  xmpFinish b (L.foldl (xmpStep b) ⟨L, [], [], []⟩)

/-- The printed line of a sidecar decision, as produced by the Printf
calls of handleXMPRenaming; classifications that print nothing map to
none. -/
def xdecLine (nm : String) : XClass → Option String
  | XClass.orphanedNoImage => some ("[REMOVE] " ++ nm ++ " (orphaned XMP, no base file exists)")
  | XClass.orphanedRecheck => some ("[REMOVE] " ++ nm ++ " (orphaned XMP, no base file exists)")
  | XClass.removeDest d => some ("[REMOVE] " ++ d ++ " (orphaned XMP, base doesn't exist)")
  | XClass.skipDest d => some ("[SKIP] " ++ nm ++ " (destination already exists: " ++ d ++ ")")
  | XClass.renameNeeded d => some (nm ++ " -> " ++ d)
  | _ => none

theorem foldl_inv {α β : Type} {f : β → α → β} {P : β → Prop}
    (h : ∀ st a, P st → P (f st a)) :
    ∀ (L : List α) (st : β), P st → P (L.foldl f st) := by
  intro L
  induction L with
  | nil => intro st hst; exact hst
  | cons a L ih => intro st hst; exact ih _ (h st a hst)

theorem dupStep_false_inert (st : DupState) (e : Entry) :
    (dupStep false st e).fs = st.fs ∧ (dupStep false st e).ops = st.ops := by
  unfold dupStep
  cases dupDecision st.fs e <;> simp

theorem xmpStep_false_inert (st : XmpState) (e : Entry) :
    (xmpStep false st e).fs = st.fs ∧ (xmpStep false st e).ops = st.ops := by
  unfold xmpStep
  split
  · exact ⟨rfl, rfl⟩
  split
  · cases h : xmpClassify st.fs e <;> simp [h]
  · exact ⟨rfl, rfl⟩

/-- Claim C1: in preview mode (the --apply flag absent) neither the
duplicate resolver nor the sidecar binder performs any filesystem
mutation: the trace of os.Remove and os.Rename calls is empty and the
directory snapshot is unchanged at the end of either run. -/
theorem preview_never_mutates :
    ∀ L : List Entry,
      (dupRun false L).ops = [] ∧ (dupRun false L).fs = L ∧
      (xmpRun false L).ops = [] ∧ (xmpRun false L).fs = L := by
  intro L
  have hd := foldl_inv (f := dupStep false)
      (P := fun s : DupState => s.fs = L ∧ s.ops = [])
      (by
        intro s a hs
        obtain ⟨h1, h2⟩ := dupStep_false_inert s a
        exact ⟨h1.trans hs.1, h2.trans hs.2⟩)
      L ⟨L, [], []⟩ ⟨rfl, rfl⟩
  have hx := foldl_inv (f := xmpStep false)
      (P := fun s : XmpState => s.fs = L ∧ s.ops = [])
      (by
        intro s a hs
        obtain ⟨h1, h2⟩ := xmpStep_false_inert s a
        exact ⟨h1.trans hs.1, h2.trans hs.2⟩)
      L ⟨L, [], [], []⟩ ⟨rfl, rfl⟩
  exact ⟨hd.2, hd.1, hx.2, hx.1⟩

/-- Claim C5 (counterexample): the normalizer is not idempotent; removing
the inner marker of a nested pattern creates a fresh marker that a second
pass removes. -/
theorem cleanFilename_not_idempotent :
    cleanFilename (cleanFilename "((1)1)") ≠ cleanFilename "((1)1)" := by decide

/-- Claim C5 (amended): the normalizer is idempotent on every name whose
normalized form contains no opening parenthesis, which covers every name
without nested markers; and normalize("a (1) (2).jpg") = "a.jpg". -/
theorem cleanFilename_idempotent_amended :
    (∀ x : String, '(' ∉ (cleanFilename x).data →
        cleanFilename (cleanFilename x) = cleanFilename x) ∧
      cleanFilename "a (1) (2).jpg" = "a.jpg" := by
  constructor
  · intro x h
    exact cleanFilename_of_not_paren _ h
  · decide

theorem cleanFilename_idempotent_amended_witness :
    cleanFilename (cleanFilename "b (7).png") = cleanFilename "b (7).png" :=
  cleanFilename_idempotent_amended.1 "b (7).png" (by decide)

/-- Claim C6 (amended): for one walk step evaluated against the same
filesystem state, preview mode and apply mode emit the same decision, in
both the duplicate resolver and the sidecar binder; the modes can only
diverge through the filesystem mutations apply performs between steps. -/
theorem decision_mode_independent_per_state :
    ∀ (st : DupState) (st2 : XmpState) (e e2 : Entry),
      (dupStep true st e).decs = (dupStep false st e).decs ∧
      (xmpStep true st2 e2).decs = (xmpStep false st2 e2).decs := by
  intro st st2 e e2
  constructor
  · unfold dupStep
    cases dupDecision st.fs e <;> simp
  · unfold xmpStep
    split
    · rfl
    split
    · cases h : xmpClassify st2.fs e2 <;> simp [h]
    · rfl

/-- Claim C6 (counterexample): on the snapshot with files a.xmp and
a.xmp.xmp the preview run emits one decision while the apply run, whose
removal of a.xmp changes the literal base-name check of a.xmp.xmp, emits
two. -/
theorem preview_apply_diverge :
    (xmpRun false [⟨"a.xmp", 1, false⟩, ⟨"a.xmp.xmp", 1, false⟩]).decs ≠
      (xmpRun true [⟨"a.xmp", 1, false⟩, ⟨"a.xmp.xmp", 1, false⟩]).decs := by
  decide

theorem dupDecision_some {fs : List Entry} {e : Entry} {p : DupPair}
    (h : dupDecision fs e = some p) :
    p.1 = cleanFilename e.name ∧ p.2.1 = e.name ∧ e.isDir = false ∧
      strEndsWith e.name ".xmp" = false ∧ cleanFilename e.name ≠ e.name := by
  unfold dupDecision at h
  split at h
  · exact absurd h (by simp)
  split at h
  · exact absurd h (by simp)
  split at h
  · exact absurd h (by simp)
  split at h
  · exact absurd h (by simp)
  split at h
  · exact absurd h (by simp)
  split at h
  · exact absurd h (by simp)
  split at h
  · injection h with h
    subst h
    refine ⟨rfl, rfl, ?_, ?_, ?_⟩ <;> simp_all
  · exact absurd h (by simp)

/-- The walk order of the directory used in the concrete duplicate
scenario of the spec: photo (1).jpg sorts before photo.jpg. -/
def photoPair : List Entry :=
  [⟨"photo (1).jpg", 500, false⟩, ⟨"photo.jpg", 500, false⟩]

/-- Claim C3 (counterexample): the resolver never checks whether the
canonical sibling is a directory; with a directory named a of recorded
size 4096 next to a file a (1) of size 4096 a pairing is emitted, while
the claim requires no decision for a directory sibling. -/
theorem dup_pair_directory_sibling :
    dupDecision [⟨"a", 4096, true⟩, ⟨"a (1)", 4096, false⟩] ⟨"a (1)", 4096, false⟩ =
        some ("a", "a (1)", 4096) ∧
      stat [⟨"a", 4096, true⟩, ⟨"a (1)", 4096, false⟩] "a" = some ⟨"a", 4096, true⟩ := by
  decide

/-- Claim C3 (amended): for a non-sidecar, non-directory entry whose name
the normalizer changes, a DuplicatePair is emitted if and only if a
same-parent sibling named normalize(baseName) exists with size exactly
equal to the entry's size; the sibling may be a file or a directory, as
the code only stats it and never inspects the directory flag. -/
theorem dup_pair_iff_amended :
    ∀ (fs : List Entry) (e : Entry),
      e.isDir = false → strEndsWith e.name ".xmp" = false →
      cleanFilename e.name ≠ e.name → stat fs e.name = some e →
      (dupDecision fs e ≠ none ↔
        ∃ o, stat fs (cleanFilename e.name) = some o ∧ o.size = e.size) := by
  intro fs e hdir hxmp hclean hself
  have hpar : containsParen e.name = true := containsParen_of_clean_ne hclean
  unfold dupDecision
  rw [if_neg (by simp [hdir]), if_neg (by simp [hxmp]), if_neg (by simp [hpar]),
    if_neg hclean]
  cases ho : stat fs (cleanFilename e.name) with
  | none => simp
  | some i2 =>
    rw [hself]
    by_cases hsz : e.size = i2.size
    · simp [hsz]
    · simp [hsz]
      intro h
      exact absurd h.symm hsz

theorem dup_pair_iff_amended_witness :
    dupDecision photoPair ⟨"photo (1).jpg", 500, false⟩ ≠ none :=
  (dup_pair_iff_amended photoPair ⟨"photo (1).jpg", 500, false⟩
      (by decide) (by decide) (by decide) (by decide)).mpr
    ⟨⟨"photo.jpg", 500, false⟩, by decide, rfl⟩

/-- Claim C4: for every emitted DuplicatePair the apply-mode step removes
exactly the walked duplicate file and never the canonical original; on
the photo.jpg / photo (1).jpg snapshot apply removes only photo (1).jpg
while preview removes nothing and emits exactly one pairing line. -/
theorem apply_deletes_only_duplicate :
    (∀ (st : DupState) (e : Entry) (p : DupPair),
        dupDecision st.fs e = some p →
        (dupStep true st e).ops = st.ops ++ [FsOp.remove p.2.1] ∧
          p.2.1 = e.name ∧ p.1 ≠ p.2.1) ∧
      (dupRun true photoPair).ops = [FsOp.remove "photo (1).jpg"] ∧
      (dupRun false photoPair).ops = [] ∧
      (dupRun false photoPair).decs = [("photo.jpg", "photo (1).jpg", 500)] := by
  refine ⟨?_, by decide, by decide, by decide⟩
  intro st e p h
  obtain ⟨h1, h2, _, _, h5⟩ := dupDecision_some h
  refine ⟨?_, h2, ?_⟩
  · unfold dupStep
    rw [h]
    simp
  · rw [h1, h2]
    exact h5

theorem apply_deletes_only_duplicate_witness :
    (dupStep true ⟨photoPair, [], []⟩ ⟨"photo (1).jpg", 500, false⟩).ops =
      [FsOp.remove "photo (1).jpg"] :=
  (apply_deletes_only_duplicate.1 ⟨photoPair, [], []⟩ ⟨"photo (1).jpg", 500, false⟩
      ("photo.jpg", "photo (1).jpg", 500) (by decide)).1

theorem eq_nil_of_filters {α : Type} {p : α → Bool} {l : List α}
    (h1 : l.filter p = []) (h2 : l.filter (fun a => !(p a)) = []) : l = [] := by
  cases l with
  | nil => rfl
  | cons a l => by_cases hp : p a = true <;> simp [List.filter_cons, hp] at h1 h2

theorem xmpFound_none_iff (fs : List Entry) (nm : String) :
    xmpFound fs nm = none ↔ xmpCands fs nm = [] := by
  constructor
  · intro h
    unfold xmpFound at h
    cases hn : xmpNumbered fs nm with
    | cons a l => rw [hn] at h; exact absurd h (by simp)
    | nil =>
      rw [hn] at h
      cases hb : xmpBare fs nm with
      | cons a l => rw [hb] at h; exact absurd h (by simp)
      | nil => exact eq_nil_of_filters hn hb
  · intro h
    have hn : xmpNumbered fs nm = [] := by unfold xmpNumbered; rw [h]; rfl
    have hb : xmpBare fs nm = [] := by unfold xmpBare; rw [h]; rfl
    unfold xmpFound
    rw [hn, hb]
    rfl

theorem xmpClassify_cases (fs : List Entry) (e : Entry) :
    xmpClassify fs e = XClass.alreadyCorrect ∨ xmpClassify fs e = XClass.ambiguous ∨
      xmpClassify fs e = XClass.orphanedNoImage ∨
      xmpClassify fs e = XClass.orphanedRecheck := by
  unfold xmpClassify
  cases h : stat fs (sidecarBase e.name) with
  | some o => simp
  | none =>
    by_cases hcond : xmpBare fs e.name ≠ [] ∧ xmpNumbered fs e.name ≠ []
    · rw [if_pos hcond]
      simp
    · rw [if_neg hcond]
      cases hf : xmpFound fs e.name with
      | none => simp
      | some img => simp

theorem xmpStep_inert_of_silent (b : Bool) (st : XmpState) (e : Entry)
    (h : xmpClassify st.fs e = XClass.alreadyCorrect ∨
      xmpClassify st.fs e = XClass.ambiguous) :
    xmpStep b st e = st := by
  unfold xmpStep
  split
  · rfl
  split
  · rcases h with h | h <;> rw [h]
  · rfl

/-- Claim C2: a sidecar that passes the literal base-name check (step 1)
and reaches candidate selection with a non-empty, unambiguous candidate
set is always classified by the failing re-check as orphaned and printed
as an orphan removal; moreover no classification ever reaches the rename
or conflict code: every sidecar ends as already correct, ambiguous, or
one of the two orphan outcomes. -/
theorem recheck_forces_orphan :
    (∀ (st : XmpState) (e : Entry),
        e.isDir = false → strEndsWith e.name ".xmp" = true →
        stat st.fs (sidecarBase e.name) = none →
        ¬(xmpBare st.fs e.name ≠ [] ∧ xmpNumbered st.fs e.name ≠ []) →
        xmpCands st.fs e.name ≠ [] →
        xmpClassify st.fs e = XClass.orphanedRecheck ∧
          xdecLine e.name (xmpClassify st.fs e) =
            some ("[REMOVE] " ++ e.name ++ " (orphaned XMP, no base file exists)") ∧
          (xmpStep true st e).ops = st.ops ++ [FsOp.remove e.name] ∧
          (xmpStep true st e).fs = removeName st.fs e.name) ∧
      (∀ (fs : List Entry) (e : Entry),
        xmpClassify fs e = XClass.alreadyCorrect ∨ xmpClassify fs e = XClass.ambiguous ∨
          xmpClassify fs e = XClass.orphanedNoImage ∨
          xmpClassify fs e = XClass.orphanedRecheck) := by
  refine ⟨?_, xmpClassify_cases⟩
  intro st e hdir hxmp h1 h2 h3
  have hcls : xmpClassify st.fs e = XClass.orphanedRecheck := by
    unfold xmpClassify
    simp only [h1]
    rw [if_neg h2]
    cases hf : xmpFound st.fs e.name with
    | none => exact absurd ((xmpFound_none_iff st.fs e.name).mp hf) h3
    | some img => rfl
  refine ⟨hcls, by rw [hcls]; rfl, ?_, ?_⟩ <;>
    · unfold xmpStep
      rw [if_neg (by simp [hdir]), if_pos hxmp, hcls]
      simp

/-- A directory where the only base-extension sibling of the sidecar is a
renumbered variant: the re-check branch fires. -/
def recheckDir : List Entry :=
  [⟨"a (1).mp4", 5, false⟩, ⟨"a (3).mp4.xmp", 1, false⟩]

theorem recheck_forces_orphan_witness :
    xmpClassify recheckDir ⟨"a (3).mp4.xmp", 1, false⟩ = XClass.orphanedRecheck ∧
      (xmpStep true ⟨recheckDir, [], [], []⟩ ⟨"a (3).mp4.xmp", 1, false⟩).ops =
        [FsOp.remove "a (3).mp4.xmp"] :=
  have h := recheck_forces_orphan.1 ⟨recheckDir, [], [], []⟩ ⟨"a (3).mp4.xmp", 1, false⟩
    (by decide) (by decide) (by decide) (by decide) (by decide)
  ⟨h.1, h.2.2.1⟩

/-- Claim C7: a sidecar with no exact literal-name sibling whose
candidates include both a bare and a marked variant of the same canonical
stem is classified ambiguous and its walk step changes nothing in either
mode. -/
theorem ambiguous_sidecar_untouched :
    ∀ (st : XmpState) (e : Entry) (b : Bool),
      stat st.fs (sidecarBase e.name) = none →
      xmpBare st.fs e.name ≠ [] → xmpNumbered st.fs e.name ≠ [] →
      xmpClassify st.fs e = XClass.ambiguous ∧ xmpStep b st e = st := by
  intro st e b h1 h2 h3
  have hcls : xmpClassify st.fs e = XClass.ambiguous := by
    unfold xmpClassify
    simp only [h1]
    rw [if_pos ⟨h2, h3⟩]
  exact ⟨hcls, xmpStep_inert_of_silent b st e (Or.inr hcls)⟩

/-- A directory holding both the bare base a.mp4 and the marked variant
a (1).mp4 next to a sidecar with no literal match. -/
def ambiguousDir : List Entry :=
  [⟨"a.mp4", 9, false⟩, ⟨"a (1).mp4", 9, false⟩, ⟨"a (3).mp4.xmp", 1, false⟩]

theorem ambiguous_sidecar_untouched_witness :
    xmpClassify ambiguousDir ⟨"a (3).mp4.xmp", 1, false⟩ = XClass.ambiguous ∧
      xmpStep true ⟨ambiguousDir, [], [], []⟩ ⟨"a (3).mp4.xmp", 1, false⟩ =
        ⟨ambiguousDir, [], [], []⟩ :=
  ambiguous_sidecar_untouched ⟨ambiguousDir, [], [], []⟩ ⟨"a (3).mp4.xmp", 1, false⟩ true
    (by decide) (by decide) (by decide)

/-- Claim C8: when a sibling named exactly like the sidecar minus its
".xmp" suffix exists, the sidecar is classified already correct before
any candidate search, and its walk step changes nothing in either mode. -/
theorem already_correct_precedence :
    ∀ (st : XmpState) (e : Entry) (b : Bool) (o : Entry),
      stat st.fs (sidecarBase e.name) = some o →
      xmpClassify st.fs e = XClass.alreadyCorrect ∧ xmpStep b st e = st := by
  intro st e b o h1
  have hcls : xmpClassify st.fs e = XClass.alreadyCorrect := by
    unfold xmpClassify
    simp only [h1]
  exact ⟨hcls, xmpStep_inert_of_silent b st e (Or.inl hcls)⟩

/-- The directory of the spec example for already-correct precedence. -/
def alreadyDir : List Entry :=
  [⟨"a (2).mp4", 7, false⟩, ⟨"a (2).mp4.xmp", 1, false⟩]

theorem already_correct_precedence_witness :
    xmpClassify alreadyDir ⟨"a (2).mp4.xmp", 1, false⟩ = XClass.alreadyCorrect ∧
      xmpStep true ⟨alreadyDir, [], [], []⟩ ⟨"a (2).mp4.xmp", 1, false⟩ =
        ⟨alreadyDir, [], [], []⟩ :=
  already_correct_precedence ⟨alreadyDir, [], [], []⟩ ⟨"a (2).mp4.xmp", 1, false⟩ true
    ⟨"a (2).mp4", 7, false⟩ (by decide)

/-- Claim C9: a sidecar whose candidate search yields nothing is
classified orphaned, printed as a removal line in the fixed format, and
removed in apply mode while preview leaves the filesystem unchanged. -/
theorem orphan_sidecar_removed :
    ∀ (st : XmpState) (e : Entry),
      e.isDir = false → strEndsWith e.name ".xmp" = true →
      stat st.fs (sidecarBase e.name) = none →
      xmpCands st.fs e.name = [] →
      xmpClassify st.fs e = XClass.orphanedNoImage ∧
        xdecLine e.name (xmpClassify st.fs e) =
          some ("[REMOVE] " ++ e.name ++ " (orphaned XMP, no base file exists)") ∧
        (xmpStep true st e).ops = st.ops ++ [FsOp.remove e.name] ∧
        (xmpStep true st e).fs = removeName st.fs e.name ∧
        (xmpStep false st e).ops = st.ops ∧ (xmpStep false st e).fs = st.fs := by
  intro st e hdir hxmp h1 hc
  have hb : xmpBare st.fs e.name = [] := by unfold xmpBare; rw [hc]; rfl
  have hf : xmpFound st.fs e.name = none := (xmpFound_none_iff _ _).mpr hc
  have hcls : xmpClassify st.fs e = XClass.orphanedNoImage := by
    unfold xmpClassify
    simp only [h1]
    rw [if_neg (fun hx => hx.1 hb), hf]
  refine ⟨hcls, by rw [hcls]; rfl, ?_, ?_, ?_, ?_⟩ <;>
    · unfold xmpStep
      rw [if_neg (by simp [hdir]), if_pos hxmp, hcls]
      simp

/-- The directory of the spec example for an orphaned sidecar. -/
def orphanDir : List Entry := [⟨"b.png.xmp", 3, false⟩]

theorem orphan_sidecar_removed_witness :
    (xmpStep true ⟨orphanDir, [], [], []⟩ ⟨"b.png.xmp", 3, false⟩).ops =
      [FsOp.remove "b.png.xmp"] :=
  (orphan_sidecar_removed ⟨orphanDir, [], [], []⟩ ⟨"b.png.xmp", 3, false⟩
      (by decide) (by decide) (by decide) (by decide)).2.2.1

/-- The mutation class of the sidecar handler: every removal names a
".xmp" file and every rename moves a ".xmp" file to a ".xmp" name. -/
def opSidecarOnly : FsOp → Bool
  | FsOp.remove nm => strEndsWith nm ".xmp"
  | FsOp.rename src dst => strEndsWith src ".xmp" && strEndsWith dst ".xmp"

/-- The mutation class of the duplicate handler: only removals of files
whose names do not end in ".xmp". -/
def opPlainRemove : FsOp → Bool
  | FsOp.remove nm => !(strEndsWith nm ".xmp")
  | FsOp.rename _ _ => false

theorem dupStep_ops_inv (b : Bool) (st : DupState) (e : Entry)
    (h : st.ops.all opPlainRemove = true) :
    (dupStep b st e).ops.all opPlainRemove = true := by
  unfold dupStep
  cases hd : dupDecision st.fs e with
  | none => exact h
  | some p =>
    obtain ⟨_, h2, _, h4, _⟩ := dupDecision_some hd
    cases b <;> simp [List.all_append, h, opPlainRemove, h2, h4]

theorem xmpStep_ops_inv (b : Bool) (st : XmpState) (e : Entry)
    (h1 : st.ops.all opSidecarOnly = true) (h2 : st.pend = []) :
    (xmpStep b st e).ops.all opSidecarOnly = true ∧ (xmpStep b st e).pend = [] := by
  unfold xmpStep
  split
  · exact ⟨h1, h2⟩
  split
  · rename_i hx
    rcases xmpClassify_cases st.fs e with hc | hc | hc | hc <;>
      rw [hc] <;> cases b <;>
      simp [List.all_append, h1, h2, hx, opSidecarOnly]
  · exact ⟨h1, h2⟩

theorem xmpFinish_of_pend_nil (b : Bool) (st : XmpState) (h : st.pend = []) :
    xmpFinish b st = st := by
  unfold xmpFinish
  cases b
  · rfl
  · rw [h]
    rfl

/-- Claim C10: the sidecar handler only ever removes or renames files
whose names end in ".xmp" (rename targets included), and the duplicate
handler only ever removes files whose names do not end in ".xmp"; each
mode's mutation trace stays inside its own file class on every input and
in both preview and apply mode. -/
theorem mode_scoped_mutations :
    ∀ (b : Bool) (L : List Entry),
      (xmpRun b L).ops.all opSidecarOnly = true ∧
      (dupRun b L).ops.all opPlainRemove = true := by
  intro b L
  have hx := foldl_inv (f := xmpStep b)
      (P := fun s : XmpState => s.ops.all opSidecarOnly = true ∧ s.pend = [])
      (fun s a hs => xmpStep_ops_inv b s a hs.1 hs.2) L ⟨L, [], [], []⟩ ⟨rfl, rfl⟩
  have hd := foldl_inv (f := dupStep b)
      (P := fun s : DupState => s.ops.all opPlainRemove = true)
      (fun s a hs => dupStep_ops_inv b s a hs) L ⟨L, [], []⟩ rfl
  refine ⟨?_, hd⟩
  unfold xmpRun
  rw [xmpFinish_of_pend_nil b _ hx.2]
  exact hx.1

end Mirror
